import Mathlib

/-!
Verification of the crossword CSP solver in
`src/optimization/crossword/generate.py` (class `CrosswordCreator`).

The `Crossword`/`Variable` grid-model classes live in `crossword.py`, which is
not part of the reviewed sources; they are modelled from the spec
(sections 3 and 4.1): a slot is identified by (row, column, direction, length),
the overlap table gives for each ordered pair of slots either `none` or a pair
of local character offsets, and the neighbor query returns all other slots
with a non-none overlap.

Python strings are embedded as `List Char`; Python sets of words as
duplicate-free `List Word`; the domain dict `self.domains` as a total function
`Var → List Word` (the Python dict has exactly the crossword's variables as
keys); a Python `dict` used as an assignment as an association list.  Methods
that mutate `self.domains` in place are embedded by explicit state passing:
they return the new store.  Python exceptions are embedded as `Except String`
with the exception text as the error value.
-/

namespace CrosswordGen

/-- A candidate word (Python string). -/
abbrev Word := List Char

/-- Modelled from the spec: a crossword slot (class `Variable` of the absent
`crossword.py`): row, column, direction (`down = true` for DOWN), length.
Two slots are equal iff all four fields match. -/
structure Var where
  row : Nat
  col : Nat
  down : Bool
  length : Nat
deriving DecidableEq

/-- Modelled from the spec: the immutable grid model (class `Crossword` of the
absent `crossword.py`): the set of slots, the vocabulary, and the overlap
table mapping each ordered pair of slots to `none` or a pair of local
offsets.  `overlaps` is total here; the construction only ever stores
entries for ordered pairs of distinct slots. -/
structure Crossword where
  vars : List Var
  words : List Word
  overlaps : Var → Var → Option (Nat × Nat)

/-- Character of `w` at position `i` (Python `w[i]`; every index the solver
uses is in bounds once node consistency has matched word and slot lengths). -/
def charAt (w : Word) (i : Nat) : Char := w.getD i ' '

/-- Modelled from the spec: the neighbor query of the grid model — all other
slots with a non-none overlap (`crossword.neighbors`). -/
def neighbors (cw : Crossword) (x : Var) : List Var :=
  cw.vars.filter (fun v => v != x && (cw.overlaps v x).isSome)

/-- Modelled from the spec: facts guaranteed by grid-model construction —
no slot overlaps itself, the overlap table is symmetric with mirrored
offsets, and the slot and word collections are sets (duplicate-free). -/
structure WF (cw : Crossword) : Prop where
  irrefl : ∀ x ∈ cw.vars, cw.overlaps x x = none
  symm : ∀ x ∈ cw.vars, ∀ y ∈ cw.vars,
    cw.overlaps y x = (cw.overlaps x y).map (fun p => (p.2, p.1))
  wordsNodup : cw.words.Nodup

/-- The domain store `self.domains`: each slot's current candidate-word set. -/
abbrev Domains := Var → List Word

/-- `self.domains = {var: self.crossword.words.copy() for var in variables}`
from `CrosswordCreator.__init__`. -/
def initDomains (cw : Crossword) : Domains := fun _ => cw.words

/-- The Python-set invariant: every slot's candidate list is duplicate-free. -/
def StoreNodup (d : Domains) : Prop := ∀ v, (d v).Nodup

/-- The inner support scan of `revise`: does some word of `dy` agree with
`wx` at the overlap offsets (`x_value[overlap[0]] == y_value[overlap[1]]`)? -/
def supportB (dy : List Word) (i j : Nat) (wx : Word) : Bool :=
  dy.any (fun wy => charAt wx i == charAt wy j)

/-- The remove-while-iterating-a-copy loop shared by
`enforce_node_consistency` and `revise`: walk `todo` (a copy of the set),
remove from the live set every element failing `keep`, and record in the
flag whether any removal happened. -/
def pruneLoop (keep : Word → Bool) : List Word → List Word × Bool → List Word × Bool
  | [], acc => acc
  | w :: rest, (live, flag) =>
      if keep w then pruneLoop keep rest (live, flag)
      else pruneLoop keep rest (live.erase w, true)

/-- `CrosswordCreator.enforce_node_consistency`: for each slot, drop every
candidate whose length differs from the slot's length.  The per-slot loops
are independent, so the dict update is embedded pointwise. -/
def enforce_node_consistency (d : Domains) : Domains :=
  fun v => (pruneLoop (fun w => v.length == w.length) (d v) (d v, false)).1

/-- `CrosswordCreator.revise`: if `x` and `y` do not overlap, return `False`
and leave the store alone; otherwise remove from `x`'s domain every word
with no supporting word in `y`'s domain, and report whether anything was
removed.  The Python loop scans the live `self.domains[y]` while erasing
only from `self.domains[x]`; the grid model never overlaps a slot with
itself, so `y`'s set is fixed throughout and is read once here. -/
def revise (cw : Crossword) (x y : Var) (d : Domains) : Bool × Domains :=
  match cw.overlaps x y with
  | none => (false, d)
  | some (i, j) =>
      let res := pruneLoop (supportB (d y) i j) (d x) (d x, false)
      (res.2, Function.update d x res.1)

/-- `CrosswordCreator.ac3`'s initial worklist when `arcs` is `None`: every
ordered pair of slots with a non-none overlap.  Python builds the list with
`insert(0, pair)` over the overlap table and pops from the tail; the
worklist is kept here in pop order (head = next pair popped), so that
construction is the table's pair order itself. -/
def initialArcs (cw : Crossword) : List (Var × Var) :=
  (cw.vars.flatMap (fun x => cw.vars.map (fun y => (x, y)))).filter
    (fun p => (cw.overlaps p.1 p.2).isSome)

/-- The worklist loop of `CrosswordCreator.ac3`, with explicit fuel (the
Python loop runs until the worklist empties; `(none, d)` means the fuel ran
out, which no Python run exhibits).  The worklist is in pop order: Python's
`arcs.pop()` takes the head here, and its `arcs.insert(0, (z, x))` over the
neighbor set appends `(z, x)` pairs at the tail.  On a revision that emptied
`x`'s domain the loop returns `False` at once; otherwise every pair `(z, x)`
for a neighbor `z ≠ y` is re-enqueued.  Returns `True` when the worklist
empties. -/
def ac3 (cw : Crossword) : Nat → List (Var × Var) → Domains → Option Bool × Domains
  | 0, _, d => (none, d)
  | fuel + 1, worklist, d =>
      match worklist with
      | [] => (some true, d)
      | (x, y) :: rest =>
          let r := revise cw x y d
          if r.1 then
            if r.2 x = [] then (some false, r.2)
            else ac3 cw fuel
              (rest ++ ((neighbors cw x).filter (fun z => z != y)).map (fun z => (z, x))) r.2
          else ac3 cw fuel rest r.2

/-- A partial assignment (Python dict slot ↦ word, as an association list). -/
abbrev Assignment := List (Var × Word)

/-- Is slot `v` a key of the assignment dict? -/
def assignedIn (a : Assignment) (v : Var) : Bool := a.any (fun p => p.1 == v)

/-- The exception text of Python `list.sort` called with a positional
argument, as in `unassigned_variables.sort(lambda x: ...)`. -/
def sortTypeError : String := "TypeError: sort takes no positional arguments"

/-- The exception text of Python adding an int to a dict, as in
`elimination_rank_per_value_dict = elimination_rank_per_value_dict + 1`. -/
def dictPlusIntTypeError : String := "TypeError: unsupported operand types for +: dict and int"

/-- `CrosswordCreator.select_unassigned_variable`: builds the list of
unassigned slots, then calls `unassigned_variables.sort(lambda x: ...)` —
`list.sort` accepts no positional argument, so every call raises
`TypeError` before anything is returned. -/
def select_unassigned_variable (cw : Crossword) (a : Assignment) :
    Except String (List Var) :=
  let _unassigned := cw.vars.filter (fun v => !(assignedIn a v))
  Except.error sortTypeError

/-- `CrosswordCreator.order_domain_values`: the counting loop runs
`elimination_rank_per_value_dict = elimination_rank_per_value_dict + 1`
(a dict plus an int — `TypeError`) the first time some word of `var`'s
domain also sits in the domain of an unassigned neighbor; if that line is
never reached, `result.sort(lambda x: ...)` raises `TypeError` instead.
Every call therefore raises. -/
def order_domain_values (cw : Crossword) (d : Domains) (var : Var) (a : Assignment) :
    Except String (List Word) :=
  if (d var).any (fun w => (neighbors cw var).any (fun nb =>
      !(assignedIn a nb) && (d nb).any (fun w2 => w2 == w))) then
    Except.error dictPlusIntTypeError
  else
    Except.error sortTypeError

/-- `CrosswordCreator.backtrack`: returns the assignment as soon as it has
as many entries as `self.domains` has slots; otherwise it calls
`select_unassigned_variable`, which always raises.  (Were a value ever
returned there, it would be a list, and `self.domains[var]` on a list key
would itself raise `TypeError: unhashable type`.) -/
def backtrack (cw : Crossword) (d : Domains) (a : Assignment) :
    Except String (Option Assignment) :=
  if a.length = cw.vars.length then Except.ok (some a)
  else
    match select_unassigned_variable cw a with
    | Except.error e => Except.error e
    | Except.ok _ => Except.error "TypeError: unhashable type: list"

/-- `CrosswordCreator.solve`: enforce node consistency, run `ac3` with no
initial worklist (its Boolean result is ignored), then backtrack from the
empty assignment.  `none` only signals exhausted `ac3` fuel, which no
Python run exhibits. -/
def solve (cw : Crossword) (fuel : Nat) : Option (Except String (Option Assignment)) :=
  let d1 := enforce_node_consistency (initDomains cw)
  match ac3 cw fuel (initialArcs cw) d1 with
  | (none, _) => none
  | (some _, d2) => some (backtrack cw d2 [])

/-- The spec's notion of a valid returned assignment: complete (every slot
has an entry), pairwise-distinct words, each word exactly the slot's
length, and every overlapping pair agrees at its overlap offsets. -/
def ValidAssignment (cw : Crossword) (a : Assignment) : Prop :=
  (∀ v ∈ cw.vars, ∃ w, (v, w) ∈ a) ∧
  a.Pairwise (fun p q => p.2 ≠ q.2) ∧
  (∀ p ∈ a, p.2.length = p.1.length) ∧
  (∀ p ∈ a, ∀ q ∈ a, ∀ i j, cw.overlaps p.1 q.1 = some (i, j) →
    charAt p.2 i = charAt q.2 j)

/-- Arc consistency of the ordered pair `(x, y)`: every word left in `x`'s
domain has a supporting word in `y`'s domain at the overlap offsets
(trivial when the slots do not overlap). -/
def ArcOK (cw : Crossword) (d : Domains) (x y : Var) : Prop :=
  ∀ i j, cw.overlaps x y = some (i, j) → ∀ w ∈ d x, supportB (d y) i j w = true

/-- The AC-3 worklist invariant: every overlapping ordered pair of slots is
either still scheduled on the worklist or already arc consistent. -/
def AC3Inv (cw : Crossword) (worklist : List (Var × Var)) (d : Domains) : Prop :=
  ∀ x ∈ cw.vars, ∀ y ∈ cw.vars, (cw.overlaps x y).isSome →
    (x, y) ∈ worklist ∨ ArcOK cw d x y

/-! ### Heap model of the domain dict for the checkpoint discipline

`backtrack` saves `domains_backup = self.domains.copy()` — a *shallow* dict
copy.  To express what that shares, the dict is modelled with explicit
object identity: a heap of set objects (cells) and an outer mapping from
slot to cell index.  `revise` mutates a set in place, i.e. rewrites the
slot's cell; `dict.copy()` duplicates only the outer mapping. -/

/-- The heap of Python set objects: cell index ↦ current contents. -/
abbrev Heap := List (List Word)

/-- The outer dict `self.domains` under object identity: slot ↦ heap cell. -/
abbrev DomainsRef := List (Var × Nat)

/-- Reading the candidate set of slot `v` through the dict and the heap. -/
def viewStore (h : Heap) (dr : DomainsRef) (v : Var) : List Word :=
  match dr.lookup v with
  | some idx => h.getD idx []
  | none => []

/-- `domains_backup = self.domains.copy()` in `backtrack`: a shallow copy —
a fresh outer mapping holding the same cell references. -/
def checkpointOf (dr : DomainsRef) : DomainsRef := dr

/-- `CrosswordCreator.revise` on the heap model: the same pruning as
`revise`, performed as Python does it — by mutating slot `x`'s set object
in place (writing the pruned contents back into `x`'s cell). -/
def reviseRef (cw : Crossword) (x y : Var) (h : Heap) (dr : DomainsRef) :
    Bool × Heap :=
  match cw.overlaps x y with
  | none => (false, h)
  | some (i, j) =>
      let dx := viewStore h dr x
      let res := pruneLoop (supportB (viewStore h dr y) i j) dx (dx, false)
      match dr.lookup x with
      | some idx => (res.2, h.set idx res.1)
      | none => (res.2, h)

/-! ### Concrete instances used by witnesses and counterexamples -/

/-- Across slot of length 3 at row 0, column 0. -/
def varX : Var := ⟨0, 0, false, 3⟩

/-- Down slot of length 3 at row 0, column 1, crossing `varX` at its cell 1
(= the down slot's cell 0). -/
def varY : Var := ⟨0, 1, true, 3⟩

/-- Two crossing slots with vocabulary {CAT, ARC}. -/
def cwCross : Crossword :=
  ⟨[varX, varY], [['C', 'A', 'T'], ['A', 'R', 'C']],
   fun a b =>
     if a = varX ∧ b = varY then some (1, 0)
     else if a = varY ∧ b = varX then some (0, 1)
     else none⟩

/-- A single isolated slot with vocabulary {CAT}. -/
def cwOne : Crossword := ⟨[varX], [['C', 'A', 'T']], fun _ _ => none⟩

/-- The degenerate slotless grid. -/
def cwEmpty : Crossword := ⟨[], [['C', 'A', 'T']], fun _ _ => none⟩

/-- The freshly initialized domain store of `cwCross`. -/
def dCross : Domains := initDomains cwCross

/-- A concrete domain dict under object identity: `varX ↦ cell 0`,
`varY ↦ cell 1`. -/
def drCross : DomainsRef := [(varX, 0), (varY, 1)]

/-- A concrete heap: `varX`'s set is {DOG}, `varY`'s set is {ARC}. -/
def heapCross : Heap := [[['D', 'O', 'G']], [['A', 'R', 'C']]]

/-! ### Lemmas about the pruning loop -/

theorem pruneLoop_flag (keep : Word → Bool) (todo live : List Word) (b : Bool) :
    (pruneLoop keep todo (live, b)).2 = (b || todo.any (fun w => !keep w)) := by
  induction todo generalizing live b with
  | nil => simp [pruneLoop]
  | cons u rest ih =>
    by_cases h : keep u
    · simp [pruneLoop, h, ih]
    · simp [pruneLoop, h, ih]

theorem pruneLoop_mem (keep : Word → Bool) (todo live : List Word) (b : Bool)
    (hnd : live.Nodup) (w : Word) :
    w ∈ (pruneLoop keep todo (live, b)).1 ↔
      w ∈ live ∧ (w ∈ todo → keep w = true) := by
  induction todo generalizing live b with
  | nil => simp [pruneLoop]
  | cons u rest ih =>
    by_cases h : keep u
    · simp only [pruneLoop, h, if_true]
      rw [ih live b hnd]
      constructor
      · rintro ⟨h1, h2⟩
        refine ⟨h1, fun hm => ?_⟩
        rcases List.mem_cons.mp hm with rfl | hm2
        · exact h
        · exact h2 hm2
      · rintro ⟨h1, h2⟩
        exact ⟨h1, fun hm => h2 (List.mem_cons_of_mem _ hm)⟩
    · have h' : keep u = false := Bool.not_eq_true _ ▸ Bool.of_not_eq_true h
      simp only [pruneLoop, h', Bool.false_eq_true, if_false]
      rw [ih (live.erase u) true (hnd.erase u)]
      rw [hnd.mem_erase_iff]
      constructor
      · rintro ⟨⟨hne, hlive⟩, hrest⟩
        refine ⟨hlive, fun hm => ?_⟩
        rcases List.mem_cons.mp hm with rfl | hm2
        · exact absurd rfl hne
        · exact hrest hm2
      · rintro ⟨hlive, hall⟩
        refine ⟨⟨fun he => ?_, hlive⟩, fun hm => hall (List.mem_cons_of_mem _ hm)⟩
        subst he
        exact h (hall (List.mem_cons_self _ _))

theorem pruneLoop_nodup (keep : Word → Bool) (todo live : List Word) (b : Bool)
    (hnd : live.Nodup) : (pruneLoop keep todo (live, b)).1.Nodup := by
  induction todo generalizing live b with
  | nil => simpa [pruneLoop] using hnd
  | cons u rest ih =>
    by_cases h : keep u
    · simpa [pruneLoop, h] using ih live b hnd
    · simpa [pruneLoop, h] using ih (live.erase u) true (hnd.erase u)

theorem pruneLoop_subset (keep : Word → Bool) (todo live : List Word) (b : Bool) :
    (pruneLoop keep todo (live, b)).1 ⊆ live := by
  induction todo generalizing live b with
  | nil => simp [pruneLoop]
  | cons u rest ih =>
    by_cases h : keep u
    · simpa [pruneLoop, h] using ih live b
    · intro w hw
      simp only [pruneLoop, h, Bool.false_eq_true, if_false] at hw
      exact List.erase_subset _ _ (ih (live.erase u) true hw)

theorem pruneLoop_id (keep : Word → Bool) (todo live : List Word) (b : Bool)
    (h : ∀ w ∈ todo, keep w = true) :
    (pruneLoop keep todo (live, b)).1 = live := by
  induction todo generalizing live b with
  | nil => simp [pruneLoop]
  | cons u rest ih =>
    have hu := h u (List.mem_cons_self u rest)
    simp only [pruneLoop, hu, if_true]
    exact ih live b (fun w hw => h w (List.mem_cons_of_mem _ hw))

/-! ### Lemmas about `revise` -/

theorem revise_none (cw : Crossword) (x y : Var) (d : Domains)
    (h : cw.overlaps x y = none) : revise cw x y d = (false, d) := by
  simp [revise, h]

theorem revise_mem (cw : Crossword) (x y : Var) (d : Domains) (i j : Nat)
    (hov : cw.overlaps x y = some (i, j)) (hnd : (d x).Nodup) (w : Word) :
    w ∈ (revise cw x y d).2 x ↔ w ∈ d x ∧ supportB (d y) i j w = true := by
  have hx : (revise cw x y d).2 x =
      (pruneLoop (supportB (d y) i j) (d x) (d x, false)).1 := by
    simp [revise, hov]
  rw [hx, pruneLoop_mem _ _ _ _ hnd]
  constructor
  · rintro ⟨h1, h2⟩; exact ⟨h1, h2 h1⟩
  · rintro ⟨h1, h2⟩; exact ⟨h1, fun _ => h2⟩

theorem revise_frame (cw : Crossword) (x y : Var) (d : Domains) (v : Var)
    (hv : v ≠ x) : (revise cw x y d).2 v = d v := by
  cases hov : cw.overlaps x y with
  | none => simp [revise, hov]
  | some p =>
    cases p with
    | mk i j => simp [revise, hov, Function.update_noteq hv]

theorem revise_flag (cw : Crossword) (x y : Var) (d : Domains) (i j : Nat)
    (hov : cw.overlaps x y = some (i, j)) :
    ((revise cw x y d).1 = true ↔ ∃ w ∈ d x, supportB (d y) i j w = false) := by
  have hx : (revise cw x y d).1 =
      (pruneLoop (supportB (d y) i j) (d x) (d x, false)).2 := by
    simp [revise, hov]
  rw [hx, pruneLoop_flag]
  simp [List.any_eq_true]

theorem revise_subset (cw : Crossword) (x y : Var) (d : Domains) (v : Var)
    (w : Word) (hw : w ∈ (revise cw x y d).2 v) : w ∈ d v := by
  by_cases hv : v = x
  · subst hv
    cases hov : cw.overlaps v y with
    | none => rw [revise_none cw v y d hov] at hw; exact hw
    | some p =>
      cases p with
      | mk i j =>
        have : (revise cw v y d).2 v =
            (pruneLoop (supportB (d y) i j) (d v) (d v, false)).1 := by
          simp [revise, hov]
        rw [this] at hw
        exact pruneLoop_subset _ _ _ _ hw
  · rwa [revise_frame cw x y d v hv] at hw

theorem revise_nodup (cw : Crossword) (x y : Var) (d : Domains)
    (hnd : StoreNodup d) : StoreNodup (revise cw x y d).2 := by
  intro v
  by_cases hv : v = x
  · subst hv
    cases hov : cw.overlaps v y with
    | none => rw [revise_none cw v y d hov]; exact hnd v
    | some p =>
      cases p with
      | mk i j =>
        have : (revise cw v y d).2 v =
            (pruneLoop (supportB (d y) i j) (d v) (d v, false)).1 := by
          simp [revise, hov]
        rw [this]
        exact pruneLoop_nodup _ _ _ _ (hnd v)
  · rw [revise_frame cw x y d v hv]; exact hnd v

theorem revise_false_eq (cw : Crossword) (x y : Var) (d : Domains)
    (hf : (revise cw x y d).1 = false) : (revise cw x y d).2 = d := by
  cases hov : cw.overlaps x y with
  | none => rw [revise_none cw x y d hov]
  | some p =>
    cases p with
    | mk i j =>
      have hflag : (pruneLoop (supportB (d y) i j) (d x) (d x, false)).2 = false := by
        have : (revise cw x y d).1 =
            (pruneLoop (supportB (d y) i j) (d x) (d x, false)).2 := by
          simp [revise, hov]
        rw [this] at hf
        exact hf
      rw [pruneLoop_flag] at hflag
      simp only [Bool.false_or] at hflag
      have hall : ∀ w ∈ d x, supportB (d y) i j w = true := by
        intro w hw
        by_contra hc
        have : (d x).any (fun w => !supportB (d y) i j w) = true :=
          List.any_eq_true.mpr ⟨w, hw, by simp [Bool.not_eq_true _ ▸ hc]⟩
        rw [hflag] at this
        exact Bool.false_ne_true this
      have hid : (pruneLoop (supportB (d y) i j) (d x) (d x, false)).1 = d x :=
        pruneLoop_id _ _ _ _ hall
      have : (revise cw x y d).2 =
          Function.update d x (pruneLoop (supportB (d y) i j) (d x) (d x, false)).1 := by
        simp [revise, hov]
      rw [this, hid, Function.update_eq_self]

theorem supportB_iff (dy : List Word) (i j : Nat) (w : Word) :
    supportB dy i j w = true ↔ ∃ wy ∈ dy, charAt w i = charAt wy j := by
  simp [supportB, List.any_eq_true]

/-! ### The AC-3 worklist invariant -/

theorem mem_neighbors (cw : Crossword) (x z : Var) :
    z ∈ neighbors cw x ↔ z ∈ cw.vars ∧ z ≠ x ∧ (cw.overlaps z x).isSome := by
  simp [neighbors, List.mem_filter, bne_iff_ne, and_assoc]

theorem mem_initialArcs (cw : Crossword) (x y : Var) :
    (x, y) ∈ initialArcs cw ↔
      x ∈ cw.vars ∧ y ∈ cw.vars ∧ (cw.overlaps x y).isSome := by
  simp only [initialArcs, List.mem_filter, List.mem_flatMap, List.mem_map]
  constructor
  · rintro ⟨⟨a, ha, b, hb, heq⟩, hov⟩
    obtain ⟨rfl, rfl⟩ := Prod.ext_iff.mp heq.symm
    exact ⟨ha, hb, hov⟩
  · rintro ⟨hx, hy, hov⟩
    exact ⟨⟨x, hx, y, hy, rfl⟩, hov⟩

theorem arcok_of_shrink (cw : Crossword) (d dn : Domains) (a b : Var)
    (hsub : ∀ w, w ∈ dn a → w ∈ d a) (heq : dn b = d b)
    (hok : ArcOK cw d a b) : ArcOK cw dn a b := by
  intro i j hov w hw
  rw [heq]
  exact hok i j hov w (hsub w hw)

theorem arcok_after_revise (cw : Crossword) (x y : Var) (d : Domains)
    (hxy : x ≠ y) (hnd : (d x).Nodup) :
    ArcOK cw (revise cw x y d).2 x y := by
  intro i j hov w hw
  rw [revise_mem cw x y d i j hov hnd w] at hw
  rw [revise_frame cw x y d y (Ne.symm hxy)]
  exact hw.2

theorem arcok_reverse_after_revise (cw : Crossword) (x y : Var) (d : Domains)
    (hxy : x ≠ y) (hnd : (d x).Nodup) (i j : Nat)
    (hov : cw.overlaps x y = some (i, j))
    (hsymm : cw.overlaps y x = some (j, i))
    (hok : ArcOK cw d y x) : ArcOK cw (revise cw x y d).2 y x := by
  intro j' i' hov' w hw
  rw [hsymm] at hov'
  injection hov' with hp
  have hj : j = j' := congrArg Prod.fst hp
  have hi : i = i' := congrArg Prod.snd hp
  rw [← hj, ← hi]
  rw [revise_frame cw x y d y (Ne.symm hxy)] at hw
  have hsup := hok j i hsymm w hw
  rw [supportB_iff] at hsup
  obtain ⟨wx, hwx, hagree⟩ := hsup
  rw [supportB_iff]
  refine ⟨wx, ?_, hagree⟩
  rw [revise_mem cw x y d i j hov hnd wx]
  refine ⟨hwx, ?_⟩
  rw [supportB_iff]
  exact ⟨w, hw, hagree.symm⟩

theorem ac3_inv_closure (cw : Crossword) (hwf : WF cw) :
    ∀ fuel worklist d,
      StoreNodup d →
      (∀ p ∈ worklist, p.1 ∈ cw.vars ∧ p.2 ∈ cw.vars) →
      AC3Inv cw worklist d →
      (ac3 cw fuel worklist d).1 = some true →
      ∀ x ∈ cw.vars, ∀ y ∈ cw.vars, (cw.overlaps x y).isSome →
        ArcOK cw (ac3 cw fuel worklist d).2 x y := by
  intro fuel
  induction fuel with
  | zero =>
    intro worklist d _ _ _ hres
    exact absurd hres (by simp [ac3])
  | succ n ih =>
    intro worklist d hnd hwl hinv hres
    cases worklist with
    | nil =>
      intro x hx y hy hov
      rcases hinv x hx y hy hov with hmem | hok
      · exact absurd hmem (List.not_mem_nil _)
      · exact hok
    | cons p rest =>
      cases p with
      | mk px py =>
        have hpx : px ∈ cw.vars := (hwl (px, py) (List.mem_cons_self _ _)).1
        have hpy : py ∈ cw.vars := (hwl (px, py) (List.mem_cons_self _ _)).2
        by_cases h1 : (revise cw px py d).1 = true
        · have hovxy : ∃ i j, cw.overlaps px py = some (i, j) := by
            cases hov2 : cw.overlaps px py with
            | none =>
              rw [revise_none cw px py d hov2] at h1
              exact absurd h1 (by simp)
            | some q =>
              cases q with
              | mk qi qj => exact ⟨qi, qj, rfl⟩
          obtain ⟨i, j, hov⟩ := hovxy
          have hpxy : px ≠ py := by
            intro he
            rw [he, hwf.irrefl py hpy] at hov
            exact Option.noConfusion hov
          by_cases h2 : (revise cw px py d).2 px = []
          · have hfalse : (ac3 cw (n + 1) ((px, py) :: rest) d).1 = some false := by
              simp [ac3, h1, h2]
            rw [hfalse] at hres
            exact absurd hres (by simp)
          · have hstep : ac3 cw (n + 1) ((px, py) :: rest) d =
                ac3 cw n
                  (rest ++ ((neighbors cw px).filter (fun z => z != py)).map
                    (fun z => (z, px)))
                  (revise cw px py d).2 := by
              simp [ac3, h1, h2]
            rw [hstep] at hres ⊢
            refine ih _ _ (revise_nodup cw px py d hnd) ?_ ?_ hres
            · intro q hq
              rcases List.mem_append.mp hq with hq1 | hq2
              · exact hwl q (List.mem_cons_of_mem _ hq1)
              · obtain ⟨z, hz, rfl⟩ := List.mem_map.mp hq2
                have hz2 := List.mem_filter.mp hz
                have hz3 := (mem_neighbors cw px z).mp hz2.1
                exact ⟨hz3.1, hpx⟩
            · intro a ha b hb hovab
              rcases hinv a ha b hb hovab with hmem | hok
              · rcases List.mem_cons.mp hmem with heq | hmem2
                · have hax : a = px := congrArg Prod.fst heq
                  have hby : b = py := congrArg Prod.snd heq
                  right
                  rw [hax, hby]
                  exact arcok_after_revise cw px py d hpxy (hnd px)
                · exact Or.inl (List.mem_append_left _ hmem2)
              · by_cases hbx : b = px
                · by_cases hay : a = py
                  · right
                    rw [hay, hbx] at hok ⊢
                    have hsymm : cw.overlaps py px = some (j, i) := by
                      have hs := hwf.symm px hpx py hpy
                      rw [hov] at hs
                      simpa using hs
                    exact arcok_reverse_after_revise cw px py d hpxy
                      (hnd px) i j hov hsymm hok
                  · left
                    rw [hbx] at hovab ⊢
                    apply List.mem_append_right
                    apply List.mem_map.mpr
                    refine ⟨a, ?_, rfl⟩
                    apply List.mem_filter.mpr
                    refine ⟨(mem_neighbors cw px a).mpr ⟨ha, ?_, hovab⟩,
                      bne_iff_ne.mpr hay⟩
                    intro hapx
                    rw [hapx, hwf.irrefl px hpx] at hovab
                    exact absurd hovab (by simp)
                · exact Or.inr (arcok_of_shrink cw d _ a b
                    (fun w hw => revise_subset cw px py d a w hw)
                    (revise_frame cw px py d b hbx) hok)
        · have hdeq : (revise cw px py d).2 = d :=
            revise_false_eq cw px py d (by simpa using h1)
          have hstep : ac3 cw (n + 1) ((px, py) :: rest) d =
              ac3 cw n rest (revise cw px py d).2 := by
            simp [ac3, h1]
          rw [hstep, hdeq] at hres ⊢
          refine ih _ _ hnd ?_ ?_ hres
          · exact fun q hq => hwl q (List.mem_cons_of_mem _ hq)
          · intro a ha b hb hovab
            rcases hinv a ha b hb hovab with hmem | hok
            · rcases List.mem_cons.mp hmem with heq | hmem2
              · have hax : a = px := congrArg Prod.fst heq
                have hby : b = py := congrArg Prod.snd heq
                right
                rw [hax, hby]
                intro i j hov w hw
                by_contra hc
                exact h1 ((revise_flag cw px py d i j hov).mpr
                  ⟨w, hw, by simpa using hc⟩)
              · exact Or.inl hmem2
            · exact Or.inr hok

/-! ### The claims -/

/-- C7: `revise x y` removes from `x`'s domain exactly those words for
which no word in `y`'s domain agrees at the overlap offsets, and returns
`true` iff at least one word was removed; with no overlap it is a no-op
returning `false`. -/
theorem claim_C7_revise_spec (cw : Crossword) (x y : Var) (d : Domains)
    (hnd : (d x).Nodup) :
    (cw.overlaps x y = none → revise cw x y d = (false, d)) ∧
    (∀ i j, cw.overlaps x y = some (i, j) →
      (∀ w, w ∈ (revise cw x y d).2 x ↔
        w ∈ d x ∧ ∃ wy ∈ d y, charAt w i = charAt wy j) ∧
      ((revise cw x y d).1 = true ↔
        ∃ w ∈ d x, w ∉ (revise cw x y d).2 x)) := by
  refine ⟨revise_none cw x y d, fun i j hov => ⟨?_, ?_⟩⟩
  · intro w
    rw [revise_mem cw x y d i j hov hnd w, supportB_iff]
  · rw [revise_flag cw x y d i j hov]
    constructor
    · rintro ⟨w, hw, hs⟩
      refine ⟨w, hw, fun hmem => ?_⟩
      rw [revise_mem cw x y d i j hov hnd w] at hmem
      rw [hmem.2] at hs
      exact absurd hs (by decide)
    · rintro ⟨w, hw, hnmem⟩
      refine ⟨w, hw, ?_⟩
      by_contra hc
      apply hnmem
      rw [revise_mem cw x y d i j hov hnd w]
      exact ⟨hw, by simpa using hc⟩

/-- Witness for C7: the characterization applied to the crossing-slot
instance at word CAT. -/
theorem claim_C7_witness :
    ['C', 'A', 'T'] ∈ (revise cwCross varX varY dCross).2 varX ↔
      ['C', 'A', 'T'] ∈ dCross varX ∧
        ∃ wy ∈ dCross varY, charAt ['C', 'A', 'T'] 1 = charAt wy 0 :=
  ((claim_C7_revise_spec cwCross varX varY dCross (by decide)).2 1 0
    (by decide)).1 ['C', 'A', 'T']

/-- C8: after `enforce_node_consistency`, every word remaining in a slot's
domain has exactly the slot's length. -/
theorem claim_C8_node_consistency (d : Domains) (v : Var)
    (hnd : (d v).Nodup) (w : Word)
    (hw : w ∈ enforce_node_consistency d v) : w.length = v.length := by
  unfold enforce_node_consistency at hw
  rw [pruneLoop_mem _ _ _ _ hnd] at hw
  exact (Nat.beq_eq_true_eq _ _ ▸ hw.2 hw.1).symm

/-- Witness for C8 on the crossing-slot instance. -/
theorem claim_C8_witness : (['C', 'A', 'T'] : Word).length = varX.length :=
  claim_C8_node_consistency dCross varX (by decide) ['C', 'A', 'T'] (by decide)

/-- C9: domains only shrink during propagation — after any `revise` and
after any `ac3` run (whatever its worklist and outcome), each slot's domain
is a subset of what it was before; nothing is ever added. -/
theorem claim_C9_propagation_monotone (cw : Crossword) :
    (∀ x y d v w, w ∈ (revise cw x y d).2 v → w ∈ d v) ∧
    (∀ fuel worklist d v w, w ∈ (ac3 cw fuel worklist d).2 v → w ∈ d v) := by
  refine ⟨fun x y d v w hw => revise_subset cw x y d v w hw, ?_⟩
  intro fuel
  induction fuel with
  | zero => exact fun worklist d v w hw => hw
  | succ n ih =>
    intro worklist d v w hw
    cases worklist with
    | nil => exact hw
    | cons p rest =>
      cases p with
      | mk x y =>
        by_cases h1 : (revise cw x y d).1 = true
        · by_cases h2 : (revise cw x y d).2 x = []
          · simp only [ac3, h1, h2, if_true] at hw
            exact revise_subset cw x y d v w hw
          · simp only [ac3, h1, h2, if_true, if_false] at hw
            exact revise_subset cw x y d v w (ih _ _ _ _ hw)
        · simp only [ac3, h1, Bool.false_eq_true, if_false] at hw
          exact revise_subset cw x y d v w (ih _ _ _ _ hw)

/-- Witness for C9: monotonicity applied to a full `ac3` run on the
crossing-slot instance. -/
theorem claim_C9_witness : ['C', 'A', 'T'] ∈ dCross varX :=
  (claim_C9_propagation_monotone cwCross).2 20 (initialArcs cwCross) dCross
    varX ['C', 'A', 'T'] (by decide)

/-- C10: `revise x y` mutates at most `x`'s domain — every other slot's
domain is returned unchanged, and with no overlap the whole store is
returned unchanged. -/
theorem claim_C10_revise_frame (cw : Crossword) (x y : Var) (d : Domains) :
    (∀ v, v ≠ x → (revise cw x y d).2 v = d v) ∧
    (cw.overlaps x y = none → (revise cw x y d).2 = d) := by
  refine ⟨fun v hv => revise_frame cw x y d v hv, fun h => ?_⟩
  rw [revise_none cw x y d h]

/-- Witness for C10: `varY`'s domain is untouched by `revise varX varY`. -/
theorem claim_C10_witness :
    (revise cwCross varX varY dCross).2 varY = dCross varY :=
  (claim_C10_revise_frame cwCross varX varY dCross).1 varY (by decide)

/-- C2 fails on the code: already on a well-formed one-slot puzzle with a
fitting word, `solve` does not return an assignment or the no-solution
signal — `select_unassigned_variable` calls `list.sort` with a positional
key function and the `TypeError` escapes `solve`. -/
theorem claim_C2_solve_raises :
    solve cwOne 5 = some (Except.error sortTypeError) := rfl

/-- C4 fails on the code: `select_unassigned_variable` never returns a
slot — its `unassigned_variables.sort(lambda ...)` call raises `TypeError`
on every input, here on the crossing-slot puzzle with nothing assigned. -/
theorem claim_C4_select_raises :
    select_unassigned_variable cwCross [] = Except.error sortTypeError := rfl

/-- C5 fails on the code: `order_domain_values` never returns an ordering —
on the crossing-slot puzzle its counting loop adds `1` to the rank dict
itself (`TypeError`); on inputs that skip that line, `result.sort` raises
instead. -/
theorem claim_C5_order_raises :
    order_domain_values cwCross (initDomains cwCross) varX [] =
      Except.error dictPlusIntTypeError := rfl

/-- C3 fails on the code: `backtrack`'s checkpoint `domains_backup =
self.domains.copy()` is a shallow copy, so the in-place pruning done by a
later `revise` rewrites the checkpoint too: after `revise varX varY`, the
saved checkpoint no longer shows `varX`'s old candidate set. -/
theorem claim_C3_checkpoint_aliased :
    viewStore (reviseRef cwCross varX varY heapCross drCross).2
        (checkpointOf drCross) varX ≠
      viewStore heapCross drCross varX := by decide

/-- C1: whenever `solve` returns an assignment (rather than the
no-solution signal or an exception), that assignment is valid — complete,
with pairwise-distinct words of the right lengths satisfying every overlap
constraint.  (Because `backtrack` raises whenever a slot is unassigned,
the only reachable success is the empty assignment on a slotless grid.) -/
theorem claim_C1_solve_sound (cw : Crossword) (fuel : Nat) (a : Assignment)
    (h : solve cw fuel = some (Except.ok (some a))) : ValidAssignment cw a := by
  simp only [solve] at h
  split at h
  · exact absurd h (by simp)
  · rename_i b d2 hd2
    have hb : backtrack cw d2 [] = Except.ok (some a) := by
      injection h
    unfold backtrack at hb
    by_cases hv : ([] : Assignment).length = cw.vars.length
    · rw [if_pos hv] at hb
      have ha : ([] : Assignment) = a := by
        injection hb with hb'
        injection hb'
      have hvars : cw.vars = [] := List.length_eq_zero.mp hv.symm
      refine ⟨?_, ?_, ?_, ?_⟩
      · intro v hvmem
        rw [hvars] at hvmem
        exact absurd hvmem (List.not_mem_nil v)
      · rw [← ha]; exact List.Pairwise.nil
      · intro p hp
        rw [← ha] at hp
        exact absurd hp (List.not_mem_nil p)
      · intro p hp
        rw [← ha] at hp
        exact absurd hp (List.not_mem_nil p)
    · rw [if_neg hv] at hb
      exact absurd hb (by simp [select_unassigned_variable])

/-- Witness for C1: the slotless grid, where `solve` returns the empty
assignment. -/
theorem claim_C1_witness : ValidAssignment cwEmpty [] :=
  claim_C1_solve_sound cwEmpty 1 [] rfl

/-- C6: when `ac3` starting from the default worklist (every ordered
overlapping pair) returns `True`, then simultaneously for every ordered
pair of overlapping slots `(x, y)`, every word left in `x`'s domain agrees
with some word left in `y`'s domain at the overlap offsets. -/
theorem claim_C6_ac3_closure (cw : Crossword) (hwf : WF cw) (fuel : Nat)
    (d : Domains) (hnd : StoreNodup d)
    (hres : (ac3 cw fuel (initialArcs cw) d).1 = some true) :
    ∀ x ∈ cw.vars, ∀ y ∈ cw.vars, ∀ i j, cw.overlaps x y = some (i, j) →
      ∀ wx ∈ (ac3 cw fuel (initialArcs cw) d).2 x,
        ∃ wy ∈ (ac3 cw fuel (initialArcs cw) d).2 y,
          charAt wx i = charAt wy j := by
  intro x hx y hy i j hov wx hwx
  have hwl : ∀ p ∈ initialArcs cw, p.1 ∈ cw.vars ∧ p.2 ∈ cw.vars := by
    intro p hp
    obtain ⟨a, b⟩ := p
    have hm := (mem_initialArcs cw a b).mp hp
    exact ⟨hm.1, hm.2.1⟩
  have hinv : AC3Inv cw (initialArcs cw) d := by
    intro a ha b hb hovab
    exact Or.inl ((mem_initialArcs cw a b).mpr ⟨ha, hb, hovab⟩)
  have hok := ac3_inv_closure cw hwf fuel (initialArcs cw) d hnd hwl hinv hres
    x hx y hy (by rw [hov]; rfl)
  have hsup := hok i j hov wx hwx
  rw [supportB_iff] at hsup
  exact hsup

/-- Witness for C6 on the crossing-slot instance: CAT stays in the across
slot and finds its partner in the down slot. -/
theorem claim_C6_witness :
    ∃ wy ∈ (ac3 cwCross 20 (initialArcs cwCross) dCross).2 varY,
      charAt ['C', 'A', 'T'] 1 = charAt wy 0 :=
  claim_C6_ac3_closure cwCross ⟨by decide, by decide, by decide⟩ 20 dCross
    (fun _ => (by decide : cwCross.words.Nodup)) (by decide) varX (by decide)
    varY (by decide) 1 0 (by decide) ['C', 'A', 'T'] (by decide)

end CrosswordGen
